import Mathlib

/-!
Verification of the SIGMORPHON 2020 task1 baseline pipeline
(`task1/baselines/fst/align.py`, `task1/baselines/fst/predict.py`,
`task1/evaluation/evallib.py`, `task1/evaluation/evaluate.py`).

Pure fragments of the Python source are embedded as executable Lean
definitions; stateful loops become explicit state passing; Python
exceptions become `Except` / `Option` results.  Operations supplied by
the external OpenFst / pynini libraries (cross, closure, optimize, the
encode mapper, `random.sample`) are not part of the repository source
and are modelled from the specification, each marked by a doc comment
beginning with "Modelled from the spec:".
-/

namespace Sigmorphon

/-- A label is an integer arc label; label 0 is reserved for epsilon. -/
abbrev Label := Nat

/-- A joint (ilabel, olabel) arc-label pair. -/
abbrev LabelPair := Nat × Nat

/-! ## `PairNGramAligner._label_union` (align.py lines 160-174)

The Python function mutates its `labels` set argument in place
(`labels.add(0)` when `epsilon` is true) and then builds a two-state
automaton with one arc per label.  The in-place mutation is embedded by
state passing: `label_union_set` is the value of the caller's set after
the call. -/

/-- The label set after `_label_union` ran: `labels.add(0)` happens
exactly when `epsilon` is true, otherwise the set is untouched. -/
def label_union_set (labels : Finset Label) (epsilon : Bool) : Finset Label :=
  if epsilon then insert 0 labels else labels

/-- A single side automaton as built by `_label_union`: arcs are
(src, ilabel, olabel, dst) tuples. -/
structure SideFst where
  numStates : Nat
  start : Nat
  finalStates : Finset Nat
  arcs : Finset (Nat × Label × Label × Nat)
  deriving DecidableEq

/-- `_label_union`: two states (`src = 0` the start, `dst = 1` final),
one arc `(src, label, label, dst)` per member of the (possibly
augmented) label set. -/
def label_union (labels : Finset Label) (epsilon : Bool) : SideFst :=
  let labels' := label_union_set labels epsilon
  { numStates := 2
    start := 0
    finalStates := {1}
    arcs := labels'.image (fun l => (0, l, l, 1)) }

/-- The set of arc labels realized on a side automaton. -/
def sideLabels (s : SideFst) : Finset Label :=
  s.arcs.image (fun a => a.2.1)

/-! ## The covering grammar (align.py lines 211-223)

`covering = pynini.cross(g_side, p_side).closure().optimize()` uses
three pynini library operations.  They are modelled from the spec: the
cross of the two single-arc-layer label-union automata pairs each
grapheme arc with each phoneme arc; closure (star) makes the start
state final and adds an epsilon arc from each final state back to the
start; optimize (epsilon removal, determinization, minimization)
yields the one-state machine whose self-loops are the non-epsilon
label pairs.  The faithfulness of the modelled optimize step is proved
below as a language-equivalence theorem. -/

/-- An automaton over joint label pairs; an arc is (src, (ilabel, olabel), dst)
and the pair (0, 0) is an epsilon transition. -/
structure PairFst where
  numStates : Nat
  start : Nat
  finalStates : Finset Nat
  arcs : Finset (Nat × LabelPair × Nat)
  deriving DecidableEq

/-- Modelled from the spec: `pynini.cross` of the two two-state
label-union automata — a two-state machine with one arc per element of
the cartesian product of the two sides' realized label sets. -/
def cross (g p : SideFst) : PairFst :=
  { numStates := 2
    start := 0
    finalStates := {1}
    arcs := ((sideLabels g) ×ˢ (sideLabels p)).image (fun q => (0, q, 1)) }

/-- Modelled from the spec: pynini `closure()` (Kleene star) — the
start state becomes final and every final state gets an epsilon arc
back to the start. -/
def closureStar (m : PairFst) : PairFst :=
  { numStates := m.numStates
    start := m.start
    finalStates := insert m.start m.finalStates
    arcs := m.arcs ∪ m.finalStates.image (fun f => (f, ((0, 0) : LabelPair), m.start)) }

/-- Modelled from the spec: pynini `optimize()` (epsilon removal,
determinization, minimization) applied to the closure of the cross
machine — the one-state machine whose self-loops are all non-epsilon
joint label pairs.  Theorem `accepts_covering_iff` below proves it
accepts exactly the language of the un-optimized machine. -/
def coveringOptimized (g p : SideFst) : PairFst :=
  { numStates := 1
    start := 0
    finalStates := {0}
    arcs := (((sideLabels g) ×ˢ (sideLabels p)).filter
              (fun q => q ≠ ((0, 0) : LabelPair))).image (fun q => (0, q, 0)) }

/-- The covering-grammar construction of `_lexicon_covering`
(align.py line 217): `pynini.cross(g_side, p_side).closure().optimize()`. -/
def covering_grammar (g_labels p_labels : Finset Label)
    (input_epsilon output_epsilon : Bool) : PairFst :=
  coveringOptimized (label_union g_labels input_epsilon)
    (label_union p_labels output_epsilon)

/-- `PairNGramAligner._narcs` (align.py lines 176-179): total number of
arcs, summed state by state. -/
def narcs (m : PairFst) : Nat :=
  (Finset.range m.numStates).sum (fun q => (m.arcs.filter (fun a => a.1 = q)).card)

/-- Acceptance of a word of joint label pairs from a given state; an
arc labeled (0, 0) is an epsilon transition and consumes nothing. -/
inductive Accepts (m : PairFst) : Nat → List LabelPair → Prop where
  | done : ∀ q, q ∈ m.finalStates → Accepts m q []
  | step : ∀ q a q' w, (q, a, q') ∈ m.arcs → a ≠ ((0, 0) : LabelPair) →
      Accepts m q' w → Accepts m q (a :: w)
  | eps : ∀ q q' w, (q, ((0, 0) : LabelPair), q') ∈ m.arcs →
      Accepts m q' w → Accepts m q w

/-- The language of a machine: words accepted from its start state. -/
def lang (m : PairFst) (w : List LabelPair) : Prop :=
  Accepts m m.start w

/-! ### Language facts about the modelled covering constructions -/

lemma sideLabels_label_union (labels : Finset Label) (epsilon : Bool) :
    sideLabels (label_union labels epsilon) = label_union_set labels epsilon := by
  unfold sideLabels label_union
  rw [Finset.image_image]
  exact Finset.image_id

lemma closure_cross_arcs (g p : SideFst) :
    (closureStar (cross g p)).arcs =
      ((sideLabels g) ×ˢ (sideLabels p)).image (fun q => (0, q, 1)) ∪
        {(1, ((0, 0) : LabelPair), 0)} := by
  simp [closureStar, cross]

/-- Every pair on a word accepted by the closure-of-cross machine is a
non-epsilon member of the label product. -/
lemma accepts_closure_cross_sound (g p : SideFst) (q : Nat) (w : List LabelPair)
    (h : Accepts (closureStar (cross g p)) q w) :
    ∀ a ∈ w, a ∈ (sideLabels g) ×ˢ (sideLabels p) ∧ a ≠ ((0, 0) : LabelPair) := by
  induction h with
  | done q hq =>
      intro a ha
      exact absurd ha (List.not_mem_nil a)
  | step q a q' w ha hne hacc ih =>
      intro b hb
      rcases List.mem_cons.mp hb with rfl | hb
      · rw [closure_cross_arcs] at ha
        rcases Finset.mem_union.mp ha with ha | ha
        · rcases Finset.mem_image.mp ha with ⟨c, hc, hco⟩
          have hcb : c = b := by simpa using congrArg (fun t => t.2.1) hco
          exact ⟨hcb ▸ hc, hne⟩
        · rw [Finset.mem_singleton] at ha
          have hb0 : b = ((0, 0) : LabelPair) := by
            simpa using congrArg (fun t => t.2.1) ha
          exact absurd hb0 hne
      · exact ih b hb
  | eps q q' w ha hacc ih =>
      intro b hb
      exact ih b hb

/-- Conversely, any word of non-epsilon product pairs is accepted by the
closure-of-cross machine from its start state 0. -/
lemma accepts_closure_cross_complete (g p : SideFst) (w : List LabelPair)
    (h : ∀ a ∈ w, a ∈ (sideLabels g) ×ˢ (sideLabels p) ∧ a ≠ ((0, 0) : LabelPair)) :
    Accepts (closureStar (cross g p)) 0 w := by
  induction w with
  | nil =>
      refine Accepts.done 0 ?_
      simp [closureStar, cross]
  | cons a w ih =>
      obtain ⟨hmem, hne⟩ := h a (List.mem_cons_self a w)
      refine Accepts.step 0 a 1 w ?_ hne ?_
      · rw [closure_cross_arcs]
        exact Finset.mem_union_left _ (Finset.mem_image_of_mem _ hmem)
      · refine Accepts.eps 1 0 w ?_ ?_
        · rw [closure_cross_arcs]
          exact Finset.mem_union_right _ (Finset.mem_singleton_self _)
        · exact ih (fun b hb => h b (List.mem_cons_of_mem a hb))

/-- Soundness for the modelled optimized one-state machine. -/
lemma accepts_covering_sound (g p : SideFst) (q : Nat) (w : List LabelPair)
    (h : Accepts (coveringOptimized g p) q w) :
    ∀ a ∈ w, a ∈ (sideLabels g) ×ˢ (sideLabels p) ∧ a ≠ ((0, 0) : LabelPair) := by
  induction h with
  | done q hq =>
      intro a ha
      exact absurd ha (List.not_mem_nil a)
  | step q a q' w ha hne hacc ih =>
      intro b hb
      rcases List.mem_cons.mp hb with rfl | hb
      · rcases Finset.mem_image.mp ha with ⟨c, hc, hco⟩
        have hc' := Finset.mem_filter.mp hc
        have hcb : c = b := by simpa using congrArg (fun t => t.2.1) hco
        exact ⟨hcb ▸ hc'.1, hcb ▸ hc'.2⟩
      · exact ih b hb
  | eps q q' w ha hacc ih =>
      intro b hb
      rcases Finset.mem_image.mp ha with ⟨c, hc, hco⟩
      have hc' := Finset.mem_filter.mp hc
      have hca : c = ((0, 0) : LabelPair) := congrArg (fun t => t.2.1) hco
      exact absurd hca hc'.2

/-- Completeness for the modelled optimized one-state machine. -/
lemma accepts_covering_complete (g p : SideFst) (w : List LabelPair)
    (h : ∀ a ∈ w, a ∈ (sideLabels g) ×ˢ (sideLabels p) ∧ a ≠ ((0, 0) : LabelPair)) :
    Accepts (coveringOptimized g p) 0 w := by
  induction w with
  | nil =>
      refine Accepts.done 0 ?_
      simp [coveringOptimized]
  | cons a w ih =>
      obtain ⟨hmem, hne⟩ := h a (List.mem_cons_self a w)
      refine Accepts.step 0 a 0 w ?_ hne ?_
      · exact Finset.mem_image_of_mem _ (Finset.mem_filter.mpr ⟨hmem, hne⟩)
      · exact ih (fun b hb => h b (List.mem_cons_of_mem a hb))

/-- The modelled optimize step is language preserving: the one-state
covering grammar accepts exactly the words of the closure of the cross
machine. -/
lemma accepts_covering_iff (g p : SideFst) (w : List LabelPair) :
    lang (closureStar (cross g p)) w ↔ lang (coveringOptimized g p) w := by
  constructor
  · intro h
    exact accepts_covering_complete g p w
      (accepts_closure_cross_sound g p _ w (by simpa [lang, closureStar, cross] using h))
  · intro h
    have := accepts_covering_sound g p _ w (by simpa [lang, coveringOptimized] using h)
    simpa [lang, closureStar, cross] using accepts_closure_cross_complete g p w this

/-! ## `PairNGramAligner._lexicon_covering` corpus scan (align.py lines 198-209)

The Python loop reads the TSV line by line, does
`(g, p) = line.rstrip().split("\t", 1)` and writes the compiled
acceptors to the grapheme and phoneme FAR writers under the
line-number key.  A line with no tab makes the tuple unpacking raise a
bare `ValueError` (no line number attached); entries already handed to
the FAR writers for earlier lines are not rolled back.  The loop is
embedded with explicit state passing; a FAR entry is modelled as the
(line number, field) pair standing for the compacted acceptor of that
field. -/

/-- Python `str.rstrip()`: drop trailing whitespace characters. -/
def pyRstrip (s : String) : String :=
  String.mk ((s.toList.reverse.dropWhile Char.isWhitespace).reverse)

/-- Split a character list at the first tab: `split("\t", 1)` keeps
everything after the first tab (later tabs included) in the second
field; `none` when there is no tab, which is the case where the
two-element tuple unpacking raises `ValueError`. -/
def splitFirstTab : List Char → Option (List Char × List Char)
  | [] => none
  | c :: rest =>
      if c = '\t' then some ([], rest)
      else (splitFirstTab rest).map (fun q => (c :: q.1, q.2))

/-- `line.split("\t", 1)` unpacked into two fields, after `rstrip`. -/
def pySplitTab (s : String) : Option (String × String) :=
  (splitFirstTab s.toList).map (fun q => (String.mk q.1, String.mk q.2))

/-- The two FAR writers' contents: keyed (by line number) entries. -/
structure FarState where
  gFar : List (Nat × String)
  pFar : List (Nat × String)
  deriving DecidableEq

/-- The error raised on a line with no tab separator: Python's
`ValueError: not enough values to unpack` — it carries no line
number. -/
inductive UnpackError
  | notEnoughValues
  deriving DecidableEq

/-- The corpus-reading loop of `_lexicon_covering`: for each line,
rstrip and split at the first tab; on success append one entry to each
FAR; on a no-tab line stop with the `ValueError`, keeping every entry
already written. -/
def lexiconScan : Nat → List String → FarState → FarState × Option UnpackError
  | _, [], st => (st, none)
  | linenum, line :: rest, st =>
      match pySplitTab (pyRstrip line) with
      | none => (st, some UnpackError.notEnoughValues)
      | some (g, p) =>
          lexiconScan (linenum + 1) rest
            { gFar := st.gFar ++ [(linenum, g)], pFar := st.pFar ++ [(linenum, p)] }

/-- The scan as `_lexicon_covering` starts it: line numbers from 1,
both FAR writers empty. -/
def lexicon_covering_scan (lines : List String) : FarState × Option UnpackError :=
  lexiconScan 1 lines ⟨[], []⟩

/-! ## `PairNGramAligner._encode` (align.py lines 341-356)

`_encode` drives `pywrapfst.EncodeMapper(encode_labels=True)` over the
alignment FAR and persists the mapper's table.  The mapper itself is
OpenFst library code, not in the repository. -/

/-- Position of a pair in the encoder table (0-based), `none` if absent. -/
def tableLookup : List LabelPair → LabelPair → Option Nat
  | [], _ => none
  | q :: rest, a => if q = a then some 0 else (tableLookup rest a).map (fun i => i + 1)

/-- Modelled from the spec: one step of the OpenFst `EncodeMapper` with
`encode_labels=True` — a pair already in the table keeps its compact
label (its position plus one, label 0 being reserved for epsilon); a
first-seen pair is appended and receives the next fresh compact
label. -/
def encodePair (t : List LabelPair) (a : LabelPair) : List LabelPair × Nat :=
  match tableLookup t a with
  | some i => (t, i + 1)
  | none => (t ++ [a], t.length + 1)

/-- Encode one alignment automaton's joint-label arc sequence,
threading the mapper table. -/
def encodeSeq (t : List LabelPair) : List LabelPair → List LabelPair × List Nat
  | [] => (t, [])
  | a :: rest =>
      let r1 := encodePair t a
      let r2 := encodeSeq r1.1 rest
      (r2.1, r1.2 :: r2.2)

/-- `_encode`: encode every automaton of the alignment FAR in order,
threading the single mapper table that is then persisted. -/
def encodeFar (t : List LabelPair) : List (List LabelPair) → List LabelPair × List (List Nat)
  | [] => (t, [])
  | w :: rest =>
      let r1 := encodeSeq t w
      let r2 := encodeFar r1.1 rest
      (r2.1, r1.2 :: r2.2)

/-- Decoding a compact label through the persisted table: label `i + 1`
names the table's i-th pair; label 0 is epsilon and decodes to nothing. -/
def decodeLabel (t : List LabelPair) (l : Nat) : Option LabelPair :=
  if l = 0 then none else t.get? (l - 1)


/-! ## `PairNGramAligner._alignments` reduction (align.py lines 317-322)

`pool.map` materializes one `(t_path, likelihood)` result per trial in
trial order (chunksize 1 keeps input order), then
`min(gen, key=operator.itemgetter(1))` selects the result with the
least likelihood, keeping the first-seen result on ties.  Python's
`min` over an empty sequence raises, embedded as `none`. -/

/-- Python `min` with `key=itemgetter(1)` over `best` followed by the
remaining results: the running best is replaced only on a strictly
smaller key. -/
def pyMin2 {A B : Type} [LinearOrder B] : (A × B) → List (A × B) → A × B
  | best, [] => best
  | best, x :: rest => pyMin2 (if x.2 < best.2 then x else best) rest

/-- The reduction `min(gen, key=operator.itemgetter(1))` over the list
of per-trial results. -/
def alignments_reduce {A B : Type} [LinearOrder B] : List (A × B) → Option (A × B)
  | [] => none
  | x :: rest => some (pyMin2 x rest)

/-! ## Per-trial seed derivation (align.py lines 300-314)

`random.seed(seed)` then `random.sample(range(1, RAND_MAX), random_starts)`.
`random.sample` is Python library code. -/

/-- `RAND_MAX` (align.py line 71). -/
def RAND_MAX : Nat := 32767

/-- Modelled from the spec: a deterministic generator step standing in
for the seeded Mersenne Twister; only determinism of the stream is
relied upon, no statistical property. -/
def lcgStep (s : Nat) : Nat := (1103515245 * s + 12345) % 2147483648

/-- Modelled from the spec: `random.sample(population, k)` — draw `k`
elements without replacement: each step picks a position from the
generator state and removes the drawn element from the population. -/
def sampleAux : Nat → Nat → List Nat → List Nat
  | _, 0, _ => []
  | s, k + 1, pop =>
      if h : pop.length = 0 then []
      else
        let s' := lcgStep s
        let x := pop.get ⟨s' % pop.length, Nat.mod_lt _ (Nat.pos_of_ne_zero h)⟩
        x :: sampleAux s' k (pop.erase x)

/-- The per-trial seed list of `_alignments`:
`random.sample(range(1, RAND_MAX), random_starts)` after
`random.seed(seed)`. -/
def random_sample_seeds (seed random_starts : Nat) : List Nat :=
  sampleAux seed random_starts (List.range' 1 (RAND_MAX - 1))

/-! ## `PairNGramAligner._random_start` (align.py lines 225-268)

The trial first runs `baumwelchrandomize` through
`subprocess.check_call`, which raises `CalledProcessError` on a
non-zero exit; it then runs `baumwelchtrain` through a
`subprocess.Popen` context manager while parsing stderr — every stderr
line must match the iteration regex (`assert match, line`), the last
matching line's value becomes the likelihood — and the context manager
never inspects the trainer's exit status.  A trial outcome is embedded
as the observable behavior of the two subprocesses. -/

/-- Likelihood value: a parsed finite value or the initial `INF`. -/
abbrev Lik := WithTop Rat

/-- `INF = float("inf")` (align.py line 70), the likelihood before any
iteration line has been parsed. -/
def INF : Lik := ⊤

/-- One stderr line of `baumwelchtrain`: either an iteration line
matching `INFO: Iteration \d+: ...` carrying a likelihood, or any
other line. -/
inductive StderrLine
  | info (iter : Nat) (lik : Rat)
  | other (s : String)
  deriving DecidableEq

/-- Observable behavior of one trial's two subprocesses. -/
structure TrialProc where
  randomizeExit : Nat
  trainStderr : List StderrLine
  trainExit : Nat
  deriving DecidableEq

/-- Exceptions a trial can raise: `CalledProcessError` from
`check_call`, or the `AssertionError` from a non-matching stderr
line. -/
inductive TrialError
  | calledProcess (exitCode : Nat)
  | assertionFailed
  deriving DecidableEq

/-- The stderr-parsing loop: each line must match the iteration regex,
and the likelihood is overwritten by each matching line. -/
def parseStderr : Lik → List StderrLine → Except TrialError Lik
  | cur, [] => Except.ok cur
  | _, StderrLine.info _ l :: rest => parseStderr (↑l) rest
  | _, StderrLine.other _ :: _ => Except.error TrialError.assertionFailed

/-- `_random_start`: `check_call` on the randomizer raises on non-zero
exit; the trainer's stderr is parsed; the trainer's exit status
(`trainExit`) is never inspected, exactly as in the source, so the
trial result is returned regardless of it.  The `t_path` result is
represented by the trial index. -/
def random_start (idx : Nat) (t : TrialProc) : Except TrialError (Nat × Lik) :=
  if t.randomizeExit ≠ 0 then Except.error (TrialError.calledProcess t.randomizeExit)
  else
    match parseStderr INF t.trainStderr with
    | Except.error e => Except.error e
    | Except.ok lik => Except.ok (idx, lik)

/-- `pool.map`: results in input order; the first raised exception
propagates to the caller and fails the whole map. -/
def collectResults {E A : Type} : List (Except E A) → Except E (List A)
  | [] => Except.ok []
  | Except.error e :: _ => Except.error e
  | Except.ok a :: rest => (collectResults rest).map (fun l => a :: l)

/-- `_alignments` after training options are fixed: run every trial
(indices from 1), fail the run if any trial raised, otherwise reduce
with `min` on likelihood. -/
def alignments (trials : List TrialProc) : Except TrialError (Option (Nat × Lik)) :=
  (collectResults (trials.enum.map (fun p => random_start (p.1 + 1) p.2))).map
    alignments_reduce

/-! ## `edit_distance` (evallib.py lines 16-34, identical to
`_edit_distance` in evaluate.py lines 21-39)

The table is a numpy `uint8` array (all arithmetic modulo 256),
initialized to zeros with the first column and first row then set to
the constant 1 — `table[1:, 0] = 1` and `table[0, 1:] = 1` — and
filled by the usual three-way minimum recurrence. -/

/-- The value of `table[i][j]` after the fill loop of
`edit_distance`. -/
def editTable (x y : List Nat) : Nat → Nat → Nat
  | 0, 0 => 0
  | _ + 1, 0 => 1
  | 0, _ + 1 => 1
  | i + 1, j + 1 =>
      if x.getD i 0 = y.getD j 0 then editTable x y i j
      else
        (min (min (editTable x y i (j + 1)) (editTable x y (i + 1) j))
            (editTable x y i j) + 1) % 256
  termination_by i j => (i, j)

/-- `edit_distance(x, y)`: the bottom-right table cell
`table[-1][-1]`. -/
def edit_distance (x y : List Nat) : Nat :=
  editTable x y x.length y.length

/-- The claim's reference function: the standard Levenshtein edit
distance (minimum number of single-element insertions, deletions and
substitutions), written as the textbook recursion.  This definition
follows the claim's words, for comparison with `edit_distance` above. -/
def levenshtein_claim : List Nat → List Nat → Nat
  | [], ys => ys.length
  | x :: xs, [] => (x :: xs).length
  | x :: xs, y :: ys =>
      if x = y then levenshtein_claim xs ys
      else
        min (min (levenshtein_claim xs (y :: ys)) (levenshtein_claim (x :: xs) ys))
          (levenshtein_claim xs ys) + 1

/-! ## `Rewriter.__call__` (predict.py lines 36-40)

The underlying `rewrite.top_rewrite` is pynini library code and is
abstracted as a function argument returning either the top rewrite or
the raised `rewrite.Error`. -/

/-- Outcome of `self.rewrite(i)`: the top rewrite string, or a raised
`rewrite.Error`. -/
inductive RewriteOutcome
  | ok (s : String)
  | rewriteError
  deriving DecidableEq

/-- `Rewriter.__call__`: return the top rewrite, catching
`rewrite.Error` and returning the sentinel string instead. -/
def rewriter_call (rw : String → RewriteOutcome) (i : String) : String :=
  match rw i with
  | RewriteOutcome.ok s => s
  | RewriteOutcome.rewriteError => "<composition failure>"


/-! ### Encoder table lemmas -/

lemma tableLookup_lt_length : ∀ (t : List LabelPair) (a : LabelPair) (i : Nat),
    tableLookup t a = some i → i < t.length := by
  intro t
  induction t with
  | nil => intro a i h; simp [tableLookup] at h
  | cons q rest ih =>
      intro a i h
      by_cases hq : q = a
      · simp [tableLookup, hq] at h
        simp [List.length_cons]
        omega
      · simp [tableLookup, hq] at h
        obtain ⟨j, hj, hji⟩ := h
        have := ih a j hj
        simp [List.length_cons]
        omega

lemma tableLookup_get : ∀ (t : List LabelPair) (a : LabelPair) (i : Nat),
    tableLookup t a = some i → t.get? i = some a := by
  intro t
  induction t with
  | nil => intro a i h; simp [tableLookup] at h
  | cons q rest ih =>
      intro a i h
      by_cases hq : q = a
      · simp [tableLookup, hq] at h
        simp [← h, hq]
      · simp [tableLookup, hq] at h
        obtain ⟨j, hj, hji⟩ := h
        rw [← hji]
        simpa using ih a j hj

lemma tableLookup_none_not_mem : ∀ (t : List LabelPair) (a : LabelPair),
    tableLookup t a = none → a ∉ t := by
  intro t
  induction t with
  | nil => intro a _; simp
  | cons q rest ih =>
      intro a h
      by_cases hq : q = a
      · simp [tableLookup, hq] at h
      · simp [tableLookup, hq] at h
        simp [List.mem_cons]
        exact ⟨fun hc => hq hc.symm, ih a h⟩

lemma get?_append_left {t u : List LabelPair} {i : Nat} (h : i < t.length) :
    (t ++ u).get? i = t.get? i :=
  List.get?_append h

/-- The pair sequence encoder: the table only grows by appending, every
pair of the input ends up in the table, and the emitted compact labels
decode back to the input through the final table or any extension of
it. -/
lemma encodeSeq_spec : ∀ (w : List LabelPair) (t : List LabelPair),
    (∃ u, (encodeSeq t w).1 = t ++ u) ∧
    (∀ p ∈ w, p ∈ (encodeSeq t w).1) ∧
    (∀ ext, (∃ v, ext = (encodeSeq t w).1 ++ v) →
      (encodeSeq t w).2.map (decodeLabel ext) = w.map some) := by
  intro w
  induction w with
  | nil =>
      intro t
      refine ⟨⟨[], by simp [encodeSeq]⟩, by simp, ?_⟩
      intro ext _
      simp [encodeSeq]
  | cons a rest ih =>
      intro t
      by_cases hl : ∃ i, tableLookup t a = some i
      · obtain ⟨i, hi⟩ := hl
        have henc : encodeSeq t (a :: rest) = ((encodeSeq t rest).1, (i + 1) :: (encodeSeq t rest).2) := by
          simp [encodeSeq, encodePair, hi]
        obtain ⟨⟨u, hu⟩, hmem, hdec⟩ := ih t
        refine ⟨⟨u, by rw [henc]; exact hu⟩, ?_, ?_⟩
        · intro p hp
          rcases List.mem_cons.mp hp with rfl | hp
          · rw [henc]
            rw [hu]
            exact List.mem_append_left u (List.get?_mem (tableLookup_get t p i hi))
          · rw [henc]
            exact hmem p hp
        · intro ext hext
          rw [henc] at hext ⊢
          obtain ⟨v, hv⟩ := hext
          have hlt : i < t.length := tableLookup_lt_length t a i hi
          have hdecode : decodeLabel ext (i + 1) = some a := by
            have hext2 : ext = t ++ (u ++ v) := by rw [hv, hu, List.append_assoc]
            rw [hext2]
            unfold decodeLabel
            simp only [Nat.add_sub_cancel, if_neg (Nat.succ_ne_zero i)]
            rw [get?_append_left hlt]
            exact tableLookup_get t a i hi
          simp only [List.map_cons, hdecode]
          rw [hdec ext ⟨v, hv⟩]
      · have hnone : tableLookup t a = none := by
          cases hcase : tableLookup t a with
          | none => rfl
          | some i => exact absurd ⟨i, hcase⟩ hl
        have henc : encodeSeq t (a :: rest) =
            ((encodeSeq (t ++ [a]) rest).1, (t.length + 1) :: (encodeSeq (t ++ [a]) rest).2) := by
          simp [encodeSeq, encodePair, hnone]
        obtain ⟨⟨u, hu⟩, hmem, hdec⟩ := ih (t ++ [a])
        refine ⟨⟨[a] ++ u, by rw [henc]; rw [hu, List.append_assoc]⟩, ?_, ?_⟩
        · intro p hp
          rcases List.mem_cons.mp hp with rfl | hp
          · rw [henc]
            rw [hu]
            exact List.mem_append_left u (List.mem_append_right t (List.mem_singleton_self p))
          · rw [henc]
            exact hmem p hp
        · intro ext hext
          rw [henc] at hext ⊢
          obtain ⟨v, hv⟩ := hext
          have hdecode : decodeLabel ext (t.length + 1) = some a := by
            have hext2 : ext = (t ++ [a]) ++ (u ++ v) := by rw [hv, hu, List.append_assoc]
            rw [hext2]
            unfold decodeLabel
            simp only [Nat.add_sub_cancel, if_neg (Nat.succ_ne_zero t.length)]
            have hlt2 : t.length < (t ++ [a]).length := by simp
            rw [get?_append_left hlt2]
            exact List.get?_concat_length t a
          simp only [List.map_cons, hdecode]
          rw [hdec ext ⟨v, hv⟩]

/-- Nodup is preserved by the encoder: a pair is appended only when it
is not yet in the table. -/
lemma encodeSeq_nodup : ∀ (w : List LabelPair) (t : List LabelPair),
    t.Nodup → (encodeSeq t w).1.Nodup := by
  intro w
  induction w with
  | nil => intro t ht; simpa [encodeSeq] using ht
  | cons a rest ih =>
      intro t ht
      cases hcase : tableLookup t a with
      | some i =>
          have henc : (encodeSeq t (a :: rest)).1 = (encodeSeq t rest).1 := by
            simp [encodeSeq, encodePair, hcase]
          rw [henc]
          exact ih t ht
      | none =>
          have henc : (encodeSeq t (a :: rest)).1 = (encodeSeq (t ++ [a]) rest).1 := by
            simp [encodeSeq, encodePair, hcase]
          rw [henc]
          refine ih (t ++ [a]) ?_
          rw [List.nodup_append]
          refine ⟨ht, List.nodup_singleton a, ?_⟩
          intro x hx hxa
          rw [List.mem_singleton] at hxa
          exact tableLookup_none_not_mem t a hcase (hxa ▸ hx)

lemma encodeFar_spec : ∀ (fars : List (List LabelPair)) (t : List LabelPair),
    (∃ u, (encodeFar t fars).1 = t ++ u) ∧
    (∀ w ∈ fars, ∀ p ∈ w, p ∈ (encodeFar t fars).1) ∧
    (∀ ext, (∃ v, ext = (encodeFar t fars).1 ++ v) →
      (encodeFar t fars).2.map (fun cs => cs.map (decodeLabel ext)) =
        fars.map (fun w => w.map some)) := by
  intro fars
  induction fars with
  | nil =>
      intro t
      refine ⟨⟨[], by simp [encodeFar]⟩, by simp, ?_⟩
      intro ext _
      simp [encodeFar]
  | cons w rest ih =>
      intro t
      have henc : encodeFar t (w :: rest) =
          ((encodeFar (encodeSeq t w).1 rest).1,
            (encodeSeq t w).2 :: (encodeFar (encodeSeq t w).1 rest).2) := by
        simp [encodeFar]
      obtain ⟨⟨u1, hu1⟩, hmem1, hdec1⟩ := encodeSeq_spec w t
      obtain ⟨⟨u2, hu2⟩, hmem2, hdec2⟩ := ih (encodeSeq t w).1
      refine ⟨⟨u1 ++ u2, by rw [henc]; rw [hu2, hu1, List.append_assoc]⟩, ?_, ?_⟩
      · intro w' hw' p hp
        rcases List.mem_cons.mp hw' with rfl | hw'
        · rw [henc]
          rw [hu2]
          exact List.mem_append_left u2 (hmem1 p hp)
        · rw [henc]
          exact hmem2 w' hw' p hp
      · intro ext hext
        rw [henc] at hext ⊢
        obtain ⟨v, hv⟩ := hext
        have hext1 : ∃ v1, ext = (encodeSeq t w).1 ++ v1 :=
          ⟨u2 ++ v, by rw [hv, hu2, List.append_assoc]⟩
        simp only [List.map_cons]
        rw [hdec1 ext hext1, hdec2 ext ⟨v, hv⟩]

lemma encodeFar_nodup : ∀ (fars : List (List LabelPair)) (t : List LabelPair),
    t.Nodup → (encodeFar t fars).1.Nodup := by
  intro fars
  induction fars with
  | nil => intro t ht; simpa [encodeFar] using ht
  | cons w rest ih =>
      intro t ht
      have henc : (encodeFar t (w :: rest)).1 = (encodeFar (encodeSeq t w).1 rest).1 := by
        simp [encodeFar]
      rw [henc]
      exact ih (encodeSeq t w).1 (encodeSeq_nodup w t ht)


/-! ### Corpus-scan lemma -/

/-- The first field a well-formed line contributes to the grapheme FAR. -/
def firstField (l : String) : String :=
  ((pySplitTab (pyRstrip l)).getD ("", "")).1

/-- The second field a well-formed line contributes to the phoneme FAR. -/
def secondField (l : String) : String :=
  ((pySplitTab (pyRstrip l)).getD ("", "")).2

/-- Running the scan over well-formed lines followed by a no-tab line:
the scan stops at the no-tab line with the unpack error, and the FAR
writers keep exactly the entries of the preceding lines. -/
lemma lexiconScan_stops : ∀ (good : List String) (n : Nat) (st : FarState)
    (bad : String) (rest : List String),
    (∀ l ∈ good, (pySplitTab (pyRstrip l)).isSome = true) →
    pySplitTab (pyRstrip bad) = none →
    lexiconScan n (good ++ bad :: rest) st =
      ({ gFar := st.gFar ++ (good.enumFrom n).map (fun q => (q.1, firstField q.2)),
         pFar := st.pFar ++ (good.enumFrom n).map (fun q => (q.1, secondField q.2)) },
        some UnpackError.notEnoughValues) := by
  intro good
  induction good with
  | nil =>
      intro n st bad rest _ hbad
      simp [lexiconScan, hbad]
  | cons l good ih =>
      intro n st bad rest hgood hbad
      have hl := hgood l (List.mem_cons_self l good)
      obtain ⟨gp, hgp⟩ := Option.isSome_iff_exists.mp hl
      have hstep : lexiconScan n ((l :: good) ++ bad :: rest) st =
          lexiconScan (n + 1) (good ++ bad :: rest)
            { gFar := st.gFar ++ [(n, gp.1)], pFar := st.pFar ++ [(n, gp.2)] } := by
        simp [lexiconScan, hgp]
      rw [hstep, ih (n + 1) _ bad rest (fun l' hl' => hgood l' (List.mem_cons_of_mem l hl')) hbad]
      have hgf : firstField l = gp.1 := by simp [firstField, hgp]
      have hpf : secondField l = gp.2 := by simp [secondField, hgp]
      simp [List.enumFrom_cons, hgf, hpf, List.append_assoc]

/-! ### Minimum-reduction lemmas -/

lemma pyMin2_le {A B : Type} [LinearOrder B] : ∀ (l : List (A × B)) (b : A × B),
    (pyMin2 b l).2 ≤ b.2 ∧ ∀ x ∈ l, (pyMin2 b l).2 ≤ x.2 := by
  intro l
  induction l with
  | nil => intro b; exact ⟨le_refl _, by simp⟩
  | cons x rest ih =>
      intro b
      have hred : pyMin2 b (x :: rest) = pyMin2 (if x.2 < b.2 then x else b) rest := rfl
      obtain ⟨h1, h2⟩ := ih (if x.2 < b.2 then x else b)
      constructor
      · rw [hred]
        refine le_trans h1 ?_
        by_cases hx : x.2 < b.2
        · rw [if_pos hx]; exact le_of_lt hx
        · rw [if_neg hx]
      · intro y hy
        rcases List.mem_cons.mp hy with rfl | hy
        · rw [hred]
          refine le_trans h1 ?_
          by_cases hx : y.2 < b.2
          · rw [if_pos hx]
          · rw [if_neg hx]; exact le_of_not_lt hx
        · rw [hred]; exact h2 y hy

lemma pyMin2_first {A B : Type} [LinearOrder B] : ∀ (l : List (A × B)) (b : A × B),
    ∃ i, (b :: l).get? i = some (pyMin2 b l) ∧
      ∀ j, j < i → ∀ y, (b :: l).get? j = some y → (pyMin2 b l).2 < y.2 := by
  intro l
  induction l with
  | nil =>
      intro b
      exact ⟨0, rfl, fun j hj => absurd hj (Nat.not_lt_zero j)⟩
  | cons x rest ih =>
      intro b
      by_cases hx : x.2 < b.2
      · have hred : pyMin2 b (x :: rest) = pyMin2 x rest := by simp [pyMin2, hx]
        obtain ⟨i, hi, hstrict⟩ := ih x
        refine ⟨i + 1, ?_, ?_⟩
        · rw [hred]; exact hi
        · intro j hj y hy
          match j, hj, hy with
          | 0, _, hy =>
              have hyb : y = b := by simpa using hy.symm
              rw [hred, hyb]
              exact lt_of_le_of_lt (pyMin2_le rest x).1 hx
          | j' + 1, hj, hy =>
              rw [hred]
              exact hstrict j' (Nat.lt_of_succ_lt_succ hj) y hy
      · have hred : pyMin2 b (x :: rest) = pyMin2 b rest := by simp [pyMin2, hx]
        obtain ⟨i, hi, hstrict⟩ := ih b
        match i, hi, hstrict with
        | 0, hi, _ =>
            refine ⟨0, ?_, fun j hj => absurd hj (Nat.not_lt_zero j)⟩
            rw [hred]
            simpa using hi
        | i' + 1, hi, hstrict =>
            refine ⟨i' + 2, ?_, ?_⟩
            · rw [hred]
              simpa using hi
            · intro j hj y hy
              match j, hj, hy with
              | 0, _, hy =>
                  have hyb : y = b := by simpa using hy.symm
                  rw [hred, hyb]
                  exact hstrict 0 (Nat.succ_pos i') b rfl
              | 1, _, hy =>
                  have hyx : y = x := by simpa using hy.symm
                  rw [hred, hyx]
                  exact lt_of_lt_of_le (hstrict 0 (Nat.succ_pos i') b rfl) (le_of_not_lt hx)
              | j' + 2, hj, hy =>
                  rw [hred]
                  exact hstrict (j' + 1) (by omega) y hy

/-! ### Seed-sampling lemmas -/

lemma sampleAux_subset : ∀ (k s : Nat) (pop : List Nat),
    ∀ x ∈ sampleAux s k pop, x ∈ pop := by
  intro k
  induction k with
  | zero => intro s pop x hx; simp [sampleAux] at hx
  | succ k ih =>
      intro s pop x hx
      by_cases hp : pop.length = 0
      · simp [sampleAux, hp] at hx
      · rw [sampleAux, dif_neg hp] at hx
        rcases List.mem_cons.mp hx with rfl | hx
        · exact List.get_mem pop _ _
        · exact List.erase_subset _ _ (ih (lcgStep s) _ x hx)

lemma sampleAux_nodup : ∀ (k s : Nat) (pop : List Nat),
    pop.Nodup → (sampleAux s k pop).Nodup := by
  intro k
  induction k with
  | zero => intro s pop _; simp [sampleAux]
  | succ k ih =>
      intro s pop hpop
      by_cases hp : pop.length = 0
      · simp [sampleAux, hp]
      · rw [sampleAux, dif_neg hp]
        rw [List.nodup_cons]
        refine ⟨?_, ih (lcgStep s) _ (hpop.erase _)⟩
        intro hmem
        have hin := sampleAux_subset k (lcgStep s) _ _ hmem
        rw [hpop.mem_erase_iff] at hin
        exact hin.1 rfl

lemma sampleAux_length : ∀ (k s : Nat) (pop : List Nat),
    k ≤ pop.length → (sampleAux s k pop).length = k := by
  intro k
  induction k with
  | zero => intro s pop _; simp [sampleAux]
  | succ k ih =>
      intro s pop hk
      have hp : pop.length ≠ 0 := by omega
      rw [sampleAux, dif_neg hp]
      rw [List.length_cons]
      rw [ih (lcgStep s) _ ?_]
      rw [List.length_erase_of_mem (List.get_mem pop _ _)]
      omega

/-! ## Claim theorems -/

/-- Claim C1: the encoder mapping built by `_encode` is injective over
the joint (ilabel, olabel) pairs realized in the alignment FSTs (the
persisted table has no duplicate pair, two pairs at the same compact
label are equal, and every realized pair is in the table), decoding a
compact label through the persisted table recovers the exact original
pair, and encoding then decoding every alignment automaton's arcs
through the mapping reproduces its original joint-label sequence
exactly. -/
theorem claim_C1_encoder_injective_roundtrip (fars : List (List LabelPair)) :
    (encodeFar [] fars).1.Nodup ∧
    (∀ p q : LabelPair, ∀ i : Nat, tableLookup (encodeFar [] fars).1 p = some i →
      tableLookup (encodeFar [] fars).1 q = some i → p = q) ∧
    (∀ w ∈ fars, ∀ p ∈ w, p ∈ (encodeFar [] fars).1) ∧
    (∀ p : LabelPair, ∀ i : Nat, tableLookup (encodeFar [] fars).1 p = some i →
      decodeLabel (encodeFar [] fars).1 (i + 1) = some p) ∧
    (encodeFar [] fars).2.map (fun cs => cs.map (decodeLabel (encodeFar [] fars).1)) =
      fars.map (fun w => w.map some) := by
  obtain ⟨⟨u, hu⟩, hmem, hdec⟩ := encodeFar_spec fars []
  refine ⟨encodeFar_nodup fars [] List.nodup_nil, ?_, hmem, ?_, ?_⟩
  · intro p q i hp hq
    have h1 := tableLookup_get _ p i hp
    have h2 := tableLookup_get _ q i hq
    rw [h1] at h2
    exact Option.some.inj h2
  · intro p i hp
    unfold decodeLabel
    rw [if_neg (Nat.succ_ne_zero i)]
    simpa using tableLookup_get _ p i hp
  · exact hdec _ ⟨[], (List.append_nil _).symm⟩

/-- Witness for C1: the table built from one automaton realizing the
pairs (1,2), (3,4), (1,2) maps (3,4) to position 1, and compact label
2 decodes back to (3,4). -/
theorem claim_C1_witness :
    tableLookup (encodeFar [] [[(1, 2), (3, 4), (1, 2)]]).1 (3, 4) = some 1 ∧
    decodeLabel (encodeFar [] [[(1, 2), (3, 4), (1, 2)]]).1 2 = some (3, 4) :=
  ⟨by decide,
    (claim_C1_encoder_injective_roundtrip [[(1, 2), (3, 4), (1, 2)]]).2.2.2.1
      (3, 4) 1 (by decide)⟩

/-- Claim C2, counterexample: on a corpus whose second line has no tab,
the scan does fail, but the error value (Python's bare unpacking
ValueError) carries no line number, and the grapheme FAR already holds
the entry written for line 1 — so it is false that no archives are
partially written. -/
theorem claim_C2_counterexample :
    (lexicon_covering_scan ["a\tb", "bad"]).2 = some UnpackError.notEnoughValues ∧
    (lexicon_covering_scan ["a\tb", "bad"]).1.gFar = [(1, "a")] ∧
    (lexicon_covering_scan ["a\tb", "bad"]).1.gFar ≠ [] :=
  ⟨by decide, by decide, by decide⟩

/-- Claim C2 as amended: a corpus line with no tab separator makes the
pipeline fail fast at that line with the tuple-unpacking ValueError —
which carries no line number — and the grapheme and phoneme FAR
entries of all preceding lines remain written. -/
theorem claim_C2_amended_partial_writes (good : List String) (bad : String)
    (rest : List String)
    (hgood : ∀ l ∈ good, (pySplitTab (pyRstrip l)).isSome = true)
    (hbad : pySplitTab (pyRstrip bad) = none) :
    (lexicon_covering_scan (good ++ bad :: rest)).2 = some UnpackError.notEnoughValues ∧
    (lexicon_covering_scan (good ++ bad :: rest)).1.gFar =
      (good.enumFrom 1).map (fun q => (q.1, firstField q.2)) ∧
    (lexicon_covering_scan (good ++ bad :: rest)).1.pFar =
      (good.enumFrom 1).map (fun q => (q.1, secondField q.2)) := by
  unfold lexicon_covering_scan
  rw [lexiconScan_stops good 1 ⟨[], []⟩ bad rest hgood hbad]
  simp

/-- Witness for the amended C2 at the corpus of `claim_C2_counterexample`. -/
theorem claim_C2_witness :
    (∀ l ∈ ["a\tb"], (pySplitTab (pyRstrip l)).isSome = true) ∧
    pySplitTab (pyRstrip ("x" : String)) = none ∧
    ((lexicon_covering_scan (["a\tb"] ++ ("x" : String) :: [])).2 =
        some UnpackError.notEnoughValues ∧
      (lexicon_covering_scan (["a\tb"] ++ ("x" : String) :: [])).1.gFar =
        ((["a\tb"] : List String).enumFrom 1).map (fun q => (q.1, firstField q.2)) ∧
      (lexicon_covering_scan (["a\tb"] ++ ("x" : String) :: [])).1.pFar =
        ((["a\tb"] : List String).enumFrom 1).map (fun q => (q.1, secondField q.2))) :=
  ⟨by decide, by decide,
    claim_C2_amended_partial_writes ["a\tb"] ("x") [] (by decide) (by decide)⟩

/-- Claim C3: for non-empty grapheme and phoneme label sets and any
setting of the two epsilon flags, the covering grammar — the optimized
closure of the cross of the two label-union automata — has exactly one
state; moreover the modelled one-state result accepts exactly the
language of the structurally built closure-of-cross machine. -/
theorem claim_C3_covering_one_state (G P : Finset Label)
    (input_epsilon output_epsilon : Bool) (hG : G.Nonempty) (hP : P.Nonempty) :
    (covering_grammar G P input_epsilon output_epsilon).numStates = 1 ∧
    ∀ w, lang (closureStar (cross (label_union G input_epsilon)
        (label_union P output_epsilon))) w ↔
      lang (covering_grammar G P input_epsilon output_epsilon) w :=
  ⟨rfl, fun w => accepts_covering_iff _ _ w⟩

/-- Witness for C3 at the singleton label sets. -/
theorem claim_C3_witness :
    ({1} : Finset Label).Nonempty ∧ ({2} : Finset Label).Nonempty ∧
    ((covering_grammar {1} {2} false false).numStates = 1 ∧
      ∀ w, lang (closureStar (cross (label_union {1} false) (label_union {2} false))) w ↔
        lang (covering_grammar {1} {2} false false) w) :=
  ⟨⟨1, Finset.mem_singleton_self 1⟩, ⟨2, Finset.mem_singleton_self 2⟩,
    claim_C3_covering_one_state {1} {2} false false
      ⟨1, Finset.mem_singleton_self 1⟩ ⟨2, Finset.mem_singleton_self 2⟩⟩

/-- Claim C4: with both epsilon flags false and non-empty label sets
none of which contains the reserved epsilon label 0 (token schemes
only produce non-zero labels), the covering grammar has exactly
|grapheme labels| × |phoneme labels| arcs. -/
theorem claim_C4_covering_arc_count (G P : Finset Label)
    (hG : G.Nonempty) (hP : P.Nonempty) (hG0 : 0 ∉ G) (hP0 : 0 ∉ P) :
    narcs (covering_grammar G P false false) = G.card * P.card := by
  have harcs : (covering_grammar G P false false).arcs =
      (G ×ˢ P).image (fun q => ((0 : Nat), q, (0 : Nat))) := by
    show ((((sideLabels (label_union G false)) ×ˢ (sideLabels (label_union P false))).filter
        (fun q => q ≠ ((0, 0) : LabelPair))).image (fun q => (0, q, 0))) = _
    rw [sideLabels_label_union, sideLabels_label_union]
    have hg : label_union_set G false = G := rfl
    have hp : label_union_set P false = P := rfl
    rw [hg, hp]
    congr 1
    refine Finset.filter_true_of_mem ?_
    intro q hq hq0
    obtain ⟨hq1, _⟩ := Finset.mem_product.mp hq
    rw [hq0] at hq1
    exact hG0 hq1
  have hinj : Function.Injective (fun q : LabelPair => ((0 : Nat), q, (0 : Nat))) := by
    intro a b hab
    exact congrArg (fun t => t.2.1) hab
  unfold narcs
  have hns : (covering_grammar G P false false).numStates = 1 := rfl
  rw [hns, Finset.sum_range_one, harcs]
  rw [Finset.filter_true_of_mem ?side]
  case side =>
    intro a ha
    obtain ⟨q, _, hq⟩ := Finset.mem_image.mp ha
    exact (congrArg (fun t => t.1) hq).symm ▸ rfl
  rw [Finset.card_image_of_injective _ hinj, Finset.card_product]

/-- Witness for C4 at the singleton label sets. -/
theorem claim_C4_witness :
    ({1} : Finset Label).Nonempty ∧ ({2} : Finset Label).Nonempty ∧
    (0 : Label) ∉ ({1} : Finset Label) ∧ (0 : Label) ∉ ({2} : Finset Label) ∧
    narcs (covering_grammar {1} {2} false false) =
      ({1} : Finset Label).card * ({2} : Finset Label).card :=
  ⟨⟨1, Finset.mem_singleton_self 1⟩, ⟨2, Finset.mem_singleton_self 2⟩,
    by decide, by decide,
    claim_C4_covering_arc_count {1} {2}
      ⟨1, Finset.mem_singleton_self 1⟩ ⟨2, Finset.mem_singleton_self 2⟩
      (by decide) (by decide)⟩

/-- Claim C5: when the reduction over the per-trial results returns a
result, that result's likelihood is ≤ every individual trial's
likelihood, and the result sits at the lowest list position (i.e. the
lowest first-seen trial index, `pool.map` preserving trial order)
among the positions attaining the minimum: every earlier position has
a strictly greater likelihood. -/
theorem claim_C5_min_reduction {A B : Type} [LinearOrder B]
    (l : List (A × B)) (r : A × B) (h : alignments_reduce l = some r) :
    (∀ x ∈ l, r.2 ≤ x.2) ∧
    ∃ i, l.get? i = some r ∧
      ∀ j, j < i → ∀ y, l.get? j = some y → r.2 < y.2 := by
  cases l with
  | nil => simp [alignments_reduce] at h
  | cons x rest =>
      obtain rfl : pyMin2 x rest = r := by simpa [alignments_reduce] using h
      constructor
      · intro y hy
        rcases List.mem_cons.mp hy with rfl | hy
        · exact (pyMin2_le rest y).1
        · exact (pyMin2_le rest x).2 y hy
      · exact pyMin2_first rest x

/-- Witness for C5 on a three-trial run with a tie on the minimum. -/
theorem claim_C5_witness :
    alignments_reduce [((1 : Nat), (3 : Nat)), (2, 1), (3, 1)] = some (2, 1) ∧
    ((∀ x ∈ [((1 : Nat), (3 : Nat)), (2, 1), (3, 1)], ((2 : Nat), (1 : Nat)).2 ≤ x.2) ∧
      ∃ i, [((1 : Nat), (3 : Nat)), (2, 1), (3, 1)].get? i = some (2, 1) ∧
        ∀ j, j < i → ∀ y,
          [((1 : Nat), (3 : Nat)), (2, 1), (3, 1)].get? j = some y →
            ((2 : Nat), (1 : Nat)).2 < y.2) :=
  ⟨by decide, claim_C5_min_reduction [((1 : Nat), (3 : Nat)), (2, 1), (3, 1)]
    (2, 1) (by decide)⟩

/-- Claim C6: for a fixed master seed and restart count R ≤ |seed
space|, the derived per-trial seed sequence is identical across runs,
its seeds are pairwise distinct (sampling without replacement), all
lie in 1..RAND_MAX-1, and there are exactly R of them. -/
theorem claim_C6_seed_derivation (seed1 seed2 R : Nat) (hseed : seed1 = seed2)
    (hR : R ≤ RAND_MAX - 1) :
    random_sample_seeds seed1 R = random_sample_seeds seed2 R ∧
    (random_sample_seeds seed1 R).Nodup ∧
    (∀ x ∈ random_sample_seeds seed1 R, 1 ≤ x ∧ x ≤ RAND_MAX - 1) ∧
    (random_sample_seeds seed1 R).length = R := by
  subst hseed
  refine ⟨rfl, ?_, ?_, ?_⟩
  · exact sampleAux_nodup R seed1 _ (List.nodup_range' _ _)
  · intro x hx
    have hmem := sampleAux_subset R seed1 _ x hx
    rw [List.mem_range'_1] at hmem
    have hrm : RAND_MAX = 32767 := rfl
    omega
  · refine sampleAux_length R seed1 _ ?_
    rw [List.length_range']
    exact hR

/-- Witness for C6 with master seed 42 and two restarts. -/
theorem claim_C6_witness :
    (42 : Nat) = 42 ∧ (2 : Nat) ≤ RAND_MAX - 1 ∧
    (random_sample_seeds 42 2 = random_sample_seeds 42 2 ∧
      (random_sample_seeds 42 2).Nodup ∧
      (∀ x ∈ random_sample_seeds 42 2, 1 ≤ x ∧ x ≤ RAND_MAX - 1) ∧
      (random_sample_seeds 42 2).length = 2) :=
  ⟨rfl, by decide, claim_C6_seed_derivation 42 42 2 rfl (by decide)⟩

/-- Claim C7 (refuting evaluation): a trial whose `baumwelchtrain`
exits with status 1 after emitting no stderr lines does NOT fail the
run — `_random_start` never inspects the trainer's exit status, the
trial returns its initial infinite likelihood, and `_alignments`
reduces over the full result list and succeeds; the claim says any
abnormal trial exit fails the entire training run. -/
theorem claim_C7_abnormal_train_exit_not_fatal :
    ({ randomizeExit := 0, trainStderr := [], trainExit := 1 } : TrialProc).trainExit ≠ 0 ∧
    random_start 1 { randomizeExit := 0, trainStderr := [], trainExit := 1 } =
      Except.ok (1, INF) ∧
    alignments [{ randomizeExit := 0, trainStderr := [], trainExit := 1 }] =
      Except.ok (some (1, INF)) :=
  ⟨by decide, rfl, rfl⟩

/-- Claim C8 (refuting evaluation): `edit_distance` initializes the
whole first row and first column of its table to the constant 1
instead of the index, so on x = [1], y = [2, 3, 4] it returns 2 while
the standard Levenshtein distance — the claim's reference definition —
is 3. -/
theorem claim_C8_edit_distance_not_levenshtein :
    edit_distance [1] [2, 3, 4] = 2 ∧ levenshtein_claim [1] [2, 3, 4] = 3 ∧
    edit_distance [1] [2, 3, 4] ≠ levenshtein_claim [1] [2, 3, 4] := by
  have h1 : edit_distance [1] [2, 3, 4] = 2 := by
    simp [edit_distance]
    norm_num [editTable]
  have h2 : levenshtein_claim [1] [2, 3, 4] = 3 := by
    norm_num [levenshtein_claim]
  exact ⟨h1, h2, by rw [h1, h2]; omega⟩

/-- Claim C9: `_label_union` adds label 0 to the caller's set exactly
when epsilon is true and leaves it unchanged otherwise, and the
returned two-state automaton has exactly one arc per member of the
(possibly augmented) set, every arc running from the start state to
the final state with equal input and output labels. -/
theorem claim_C9_label_union_effects (labels : Finset Label) :
    label_union_set labels true = insert 0 labels ∧
    (0 : Label) ∈ label_union_set labels true ∧
    label_union_set labels false = labels ∧
    ∀ eps : Bool,
      (label_union labels eps).numStates = 2 ∧
      (label_union labels eps).arcs.card = (label_union_set labels eps).card ∧
      (∀ l ∈ label_union_set labels eps,
        (((label_union labels eps).start : Nat), l, l, 1) ∈ (label_union labels eps).arcs) ∧
      (∀ a ∈ (label_union labels eps).arcs,
        a.1 = (label_union labels eps).start ∧
        a.2.2.2 ∈ (label_union labels eps).finalStates ∧
        a.2.1 ∈ label_union_set labels eps ∧ a.2.2.1 = a.2.1) := by
  refine ⟨rfl, Finset.mem_insert_self 0 labels, rfl, ?_⟩
  intro eps
  refine ⟨rfl, ?_, ?_, ?_⟩
  · refine Finset.card_image_of_injective _ ?_
    intro a b hab
    exact congrArg (fun t => t.2.1) hab
  · intro l hl
    exact Finset.mem_image_of_mem _ hl
  · intro a ha
    obtain ⟨l, hl, rfl⟩ := Finset.mem_image.mp ha
    exact ⟨rfl, Finset.mem_singleton_self 1, hl, rfl⟩

/-- Witness for C9: with label set {5} and epsilon enabled, the
epsilon arc for the added label 0 is present. -/
theorem claim_C9_witness :
    (0 : Label) ∈ label_union_set {5} true ∧
    ((((label_union {5} true).start : Nat), (0 : Label), (0 : Label), 1) ∈
      (label_union {5} true).arcs) :=
  ⟨by decide,
    ((claim_C9_label_union_effects {5}).2.2.2 true).2.2.1 0 (by decide)⟩

/-- Claim C10: `Rewriter.__call__` always returns a string: the top
rewrite when the underlying rewrite succeeds, and exactly the sentinel
string when the underlying rewrite raises `rewrite.Error`; the error
is never propagated. -/
theorem claim_C10_rewriter_never_raises (rw : String → RewriteOutcome) (i : String) :
    (∀ s, rw i = RewriteOutcome.ok s → rewriter_call rw i = s) ∧
    (rw i = RewriteOutcome.rewriteError →
      rewriter_call rw i = "<composition failure>") := by
  constructor
  · intro s hs
    unfold rewriter_call
    rw [hs]
  · intro hs
    unfold rewriter_call
    rw [hs]

/-- Witness for C10, exercising both the success and the error branch. -/
theorem claim_C10_witness :
    ((fun _ : String => RewriteOutcome.rewriteError) ("cat") =
      RewriteOutcome.rewriteError) ∧
    rewriter_call (fun _ : String => RewriteOutcome.rewriteError) ("cat") =
      "<composition failure>" ∧
    ((fun _ : String => RewriteOutcome.ok ("k ae t")) ("cat") =
      RewriteOutcome.ok ("k ae t")) ∧
    rewriter_call (fun _ : String => RewriteOutcome.ok ("k ae t")) ("cat") = "k ae t" :=
  ⟨rfl, (claim_C10_rewriter_never_raises _ ("cat")).2 rfl, rfl,
    (claim_C10_rewriter_never_raises _ ("cat")).1 ("k ae t") rfl⟩

end Sigmorphon
